import Mathlib

/-!
Verification of countprof (src/countprof.c), a sampling profiler for Lua.

This file gives a shallow embedding of the core of countprof:
  * the 19-element median window (`updateIPMSWin`, lines 61-222),
  * the rate-controller hook (`countHook`, lines 226-248),
  * the call-tree aggregator (`LLFIND`/`getLine`/`getSource`/`getARLine`,
    lines 68-172),
  * the report serializer (`dumpStack`/`dumpSources`, lines 292-326)
and the profiler entry points (`countprof_start`/`countprof_stop`/
`countprof_dump`, lines 273-338), and proves the spec's claims about them.

Modelling conventions: C `int` values are modelled as `Int` (overflow of the
32-bit type is immaterial to the claims below); the `uint64_t` hit counter is
modelled as `Nat`; `uint64_t` timestamp arithmetic, where wrap-around is
material, is modelled with explicit `% 2 ^ 64`.  Array reads are modelled with
`List.getD` (a separate checked model, `updateIPMSWinChecked`, makes every
array access explicit and fails on any out-of-bounds access).
-/

namespace Countprof

/-! ### Median window (src/countprof.c lines 61-66, 174-222) -/

/-- `WINSIZE` from line 61. -/
def WINSIZE : Nat := 19

/-- The globals of the median window: `gIPMSWin` (the sorted view),
`gIPMSRing` (the insertion-order ring) and `gIPMSRingIdx` (lines 64-66). -/
structure MWState where
  gIPMSWin : List Int
  gIPMSRing : List Int
  gIPMSRingIdx : Nat
deriving Repr, DecidableEq

/-- The initial state of the window: both arrays all zero, index 0
(lines 64-66). -/
def initMW : MWState :=
  ⟨List.replicate WINSIZE 0, List.replicate WINSIZE 0, 0⟩

/-- The "bubble up to repair" loop of `updateIPMSWin` (lines 195-205):
`while(i > 0) { if(ipms < gIPMSWin[i-1]) gIPMSWin[i] = gIPMSWin[i-1]; else
break; i--; }`.  Returns the updated array together with the final `i`. -/
def bubbleUp (ipms : Int) : List Int → Nat → List Int × Nat
  | win, 0 => (win, 0)
  | win, i + 1 =>
    if ipms < win.getD i 0 then
      bubbleUp ipms (win.set (i + 1) (win.getD i 0)) i
    else
      (win, i + 1)

/-- The "gte, bubble down to repair" loop of `updateIPMSWin` (lines 206-216):
`while(i < WINSIZE - 1) { if(ipms > gIPMSWin[i+1]) gIPMSWin[i] =
gIPMSWin[i+1]; else break; i++; }`.  The loop guard `i < WINSIZE - 1` is
encoded structurally by the fuel argument `WINSIZE - 1 - i`, which is zero
exactly when the guard fails and decreases by one each time `i` increases. -/
def bubbleDownAux (ipms : Int) : List Int → Nat → Nat → List Int × Nat
  | win, i, 0 => (win, i)
  | win, i, fuel + 1 =>
    if win.getD (i + 1) 0 < ipms then
      bubbleDownAux ipms (win.set i (win.getD (i + 1) 0)) (i + 1) fuel
    else
      (win, i)

/-- The bubble-down loop entered at index `i` (see `bubbleDownAux`). -/
def bubbleDown (ipms : Int) (win : List Int) (i : Nat) : List Int × Nat :=
  bubbleDownAux ipms win i (WINSIZE - 1 - i)

/-- The linear scan of `updateIPMSWin` (lines 188-192):
`int i = 0; while(gIPMSWin[i] != ipmsRem) i++;`.  Counts the entries before
the first occurrence of `v`; if `v` is absent the result is the array length
(the C loop would read past the end of the array — see the checked model). -/
def scanEq : List Int → Int → Nat
  | [], _ => 0
  | a :: as, v => if a = v then 0 else scanEq as v + 1

/-- `updateIPMSWin` (lines 176-222): advance the ring cursor, evict the value
at that slot, store the new value there, locate the evicted value in the
sorted view by linear scan, repair sortedness by bubbling, write the new
value, and return the middle element `gIPMSWin[WINSIZE / 2]`.
Returns `(new median, new state)`. -/
def updateIPMSWin (ipms : Int) (s : MWState) : Int × MWState :=
  let idx := if s.gIPMSRingIdx + 1 ≥ WINSIZE then 0 else s.gIPMSRingIdx + 1
  let ipmsRem := s.gIPMSRing.getD idx 0
  let ring := s.gIPMSRing.set idx ipms
  let i := scanEq s.gIPMSWin ipmsRem
  let bu := if ipms < ipmsRem then bubbleUp ipms s.gIPMSWin i
            else bubbleDown ipms s.gIPMSWin i
  let win := bu.1.set bu.2 ipms
  (win.getD (WINSIZE / 2) 0, ⟨win, ring, idx⟩)

/-- Feed a whole sequence of samples, left to right, starting from the
initial all-zero state. -/
def feedMW (xs : List Int) : MWState :=
  xs.foldl (fun s x => (updateIPMSWin x s).2) initMW

/-- The full history of window contents when `xs` has been fed: the
19 initial zeros followed by the samples, oldest first. -/
def histFull (xs : List Int) : List Int :=
  List.replicate WINSIZE 0 ++ xs

/-- The most recent 19 values after feeding `xs` (initial zeros count as
window contents until overwritten). -/
def recent19 (xs : List Int) : List Int :=
  (histFull xs).drop xs.length

/-! ### Checked model of `updateIPMSWin`

The C routine indexes the two 19-element arrays without bounds checks; in
particular the linear scan `while(gIPMSWin[i] != ipmsRem) i++;` (line 191)
would run past the end of the array if the evicted value were absent from the
sorted view.  The definitions below redo `updateIPMSWin` with every array
access checked, returning `none` as soon as any access would be out of
bounds `[0, 18]`. -/

/-- Checked linear scan (line 191): first index holding `v`, or `none` if the
scan would read past the end of the array. -/
def scanIdx : List Int → Int → Option Nat
  | [], _ => none
  | a :: as, v => if a = v then some 0 else (scanIdx as v).map (· + 1)

/-- Checked bubble-up loop: every read `win[i-1]` and write `win[i]` is
bounds-checked. -/
def bubbleUpChecked (ipms : Int) : List Int → Nat → Option (List Int × Nat)
  | win, 0 => some (win, 0)
  | win, i + 1 =>
    match win[i]? with
    | none => none
    | some v =>
      if ipms < v then
        if i + 1 < win.length then bubbleUpChecked ipms (win.set (i + 1) v) i
        else none
      else
        some (win, i + 1)

/-- Checked bubble-down loop: every read `win[i+1]` and write `win[i]` is
bounds-checked.  The loop guard is encoded by the fuel argument exactly as in
`bubbleDownAux`. -/
def bubbleDownCheckedAux (ipms : Int) :
    List Int → Nat → Nat → Option (List Int × Nat)
  | win, i, 0 => some (win, i)
  | win, i, fuel + 1 =>
    match win[i + 1]? with
    | none => none
    | some v =>
      if v < ipms then
        if i < win.length then
          bubbleDownCheckedAux ipms (win.set i v) (i + 1) fuel
        else none
      else
        some (win, i)

/-- The checked bubble-down loop entered at index `i`. -/
def bubbleDownChecked (ipms : Int) (win : List Int) (i : Nat) :
    Option (List Int × Nat) :=
  bubbleDownCheckedAux ipms win i (WINSIZE - 1 - i)

/-- `updateIPMSWin` with every array access checked; `none` means the C code
would have accessed one of the 19-element arrays out of bounds. -/
def updateIPMSWinChecked (ipms : Int) (s : MWState) : Option (Int × MWState) :=
  let idx := if s.gIPMSRingIdx + 1 ≥ WINSIZE then 0 else s.gIPMSRingIdx + 1
  match s.gIPMSRing[idx]? with
  | none => none
  | some ipmsRem =>
    if idx < s.gIPMSRing.length then
      let ring := s.gIPMSRing.set idx ipms
      match scanIdx s.gIPMSWin ipmsRem with
      | none => none
      | some i =>
        match (if ipms < ipmsRem then bubbleUpChecked ipms s.gIPMSWin i
               else bubbleDownChecked ipms s.gIPMSWin i) with
        | none => none
        | some bu =>
          if bu.2 < bu.1.length then
            let win := bu.1.set bu.2 ipms
            match win[WINSIZE / 2]? with
            | none => none
            | some med => some (med, ⟨win, ring, idx⟩)
          else none
    else none

/-! ### Call-tree aggregator (src/countprof.c lines 68-172)

The source is compiled with `STACK = 1` and `CURRENTLINE = 0` (lines 39-40),
so each `Line` node carries a `callHead` child forest and frames are keyed by
`linedefined`.  `struct Line` (lines 83-91) and `struct Source` (lines
114-119) form the two alternating levels of the aggregation forest. -/

mutual
/-- `struct Source` (lines 114-119): a source name and the head of its list
of `Line` nodes.  The `next` pointer of the C struct is modelled by the
position in the enclosing `List`. -/
inductive Source' where
  | mk (source : String) (lineHead : List Line')

/-- `struct Line` (lines 83-91): a line number, a hit counter (`uint64_t`,
modelled as `Nat`) and the head of the child forest `callHead`. -/
inductive Line' where
  | mk (line : Int) (count : Nat) (callHead : List Source')
end

def Source'.source : Source' → String
  | .mk s _ => s

def Source'.lineHead : Source' → List Line'
  | .mk _ h => h

def Line'.line : Line' → Int
  | .mk l _ _ => l

def Line'.count : Line' → Nat
  | .mk _ c _ => c

def Line'.callHead : Line' → List Source'
  | .mk _ _ h => h

/-- The `LLFIND` macro (lines 68-80): walk the sibling list; if a node whose
key equals `k` is found, unlink it and report it together with the remaining
list (the caller re-links it at the head); otherwise report `none`. -/
def llfind {α κ : Type} [DecidableEq κ] (key : α → κ) (k : κ) :
    List α → Option (α × List α)
  | [] => none
  | a :: as =>
    if key a = k then some (a, as)
    else (llfind key k as).map (fun p => (p.1, a :: p.2))

/-- `getLine` (lines 94-111): find-or-create a `Line` node with the given
line number.  Returns `(node, rest)`; the updated sibling list is
`node :: rest` (a found node is moved to the front, a fresh node has count 0
and no children). -/
def getLine (head : List Line') (k : Int) : Line' × List Line' :=
  match llfind Line'.line k head with
  | some p => p
  | none => (Line'.mk k 0 [], head)

/-- `getSource` (lines 122-136): find-or-create a `Source` node with the
given source name.  Returns `(node, rest)`; the updated sibling list is
`node :: rest`. -/
def getSource (head : List Source') (k : String) : Source' × List Source' :=
  match llfind Source'.source k head with
  | some p => p
  | none => (Source'.mk k [], head)

/-- One sampled frame: `(ar->source, ar->linedefined)` (lines 164-166). -/
abbrev FrameKey := String × Int

/-- The effect of one sample on the forest: `getARLine` (lines 138-172)
resolves the stack root-first, descending through `getSource`/`getLine` and
the `callHead` of each `Line` node, and `countHook` (line 246) increments the
hit counter of the final (leaf) node.  `ks` lists the sampled stack from root
to leaf. -/
def recordPath : List FrameKey → List Source' → List Source'
  | [], forest => forest
  | [k], forest =>
    let g := getSource forest k.1
    let gl := getLine g.1.lineHead k.2
    Source'.mk g.1.source
      (Line'.mk gl.1.line (gl.1.count + 1) gl.1.callHead :: gl.2) :: g.2
  | k :: k' :: ks, forest =>
    let g := getSource forest k.1
    let gl := getLine g.1.lineHead k.2
    Source'.mk g.1.source
      (Line'.mk gl.1.line gl.1.count (recordPath (k' :: ks) gl.1.callHead)
        :: gl.2) :: g.2

/-! ### Report serializer (src/countprof.c lines 284-326) -/

/-- One `source:line` token of `dumpStack` (line 299, `"%s:%d"`). -/
def renderFrame (p : FrameKey) : String :=
  p.1 ++ ":" ++ toString p.2

/-- `dumpStack` (lines 292-300): the path is chained leaf-first (each
`struct Stack` link points at its parent), and the recursion prints the
parent chain first, so the output is the root-to-leaf `;`-joined token
sequence. -/
def renderPath (rev : List FrameKey) : String :=
  String.intercalate ";" (rev.reverse.map renderFrame)

/-- One output line of `dumpSources` (lines 320-321): the rendered path, one
space, and the node's hit counter in decimal (`" %llu\n"`). -/
def renderEntry (e : List FrameKey × Nat) : String :=
  renderPath e.1 ++ " " ++ toString e.2

mutual
/-- `dumpSources` (lines 303-326): walk the sibling list of sources; for
each source walk its lines.  `pref` is the chain of `struct Stack` links
built so far (leaf-first). -/
def dumpSources : List Source' → List FrameKey → List String
  | [], _ => []
  | .mk sname lines :: rest, pref =>
    dumpLines sname lines pref ++ dumpSources rest pref

/-- The inner line loop of `dumpSources` (lines 313-323): for each `Line`
node, first dump the child forest (guarded by `if(line->callHead)`, line
317), then emit the node's own line. -/
def dumpLines : String → List Line' → List FrameKey → List String
  | _, [], _ => []
  | sname, .mk lno cnt kids :: rest, pref =>
    (if kids.isEmpty then [] else dumpSources kids ((sname, lno) :: pref)) ++
      [renderEntry ((sname, lno) :: pref, cnt)] ++ dumpLines sname rest pref
end

mutual
/-- Specification-side enumeration of the forest: one entry
`(root-to-node path reversed, hit count)` per node of the forest, in
traversal order.  Used to state report completeness. -/
def entriesSources : List Source' → List FrameKey → List (List FrameKey × Nat)
  | [], _ => []
  | .mk sname lines :: rest, pref =>
    entriesLines sname lines pref ++ entriesSources rest pref

/-- Per-line part of `entriesSources`: each `Line` node contributes the
entries of its child forest plus exactly one entry of its own. -/
def entriesLines : String → List Line' → List FrameKey →
    List (List FrameKey × Nat)
  | _, [], _ => []
  | sname, .mk lno cnt kids :: rest, pref =>
    entriesSources kids ((sname, lno) :: pref) ++
      [(((sname, lno) :: pref), cnt)] ++ entriesLines sname rest pref
end

/-! ### Rate controller and profiler entry points
(src/countprof.c lines 58-59, 226-248, 273-338) -/

/-- The `elapsed` computation of `countHook` (lines 228-231): `uint64_t`
subtraction `cur - gLastTime` (which wraps modulo `2 ^ 64`), then
`if(elapsed < 1) elapsed = 1;`. -/
def hookElapsed (cur last : Nat) : Nat :=
  let e := (cur % 2 ^ 64 + 2 ^ 64 - last % 2 ^ 64) % 2 ^ 64
  if e < 1 then 1 else e

/-- The profiler's global state: `gLastCount` and `gLastTime` (lines 58-59),
the median window globals, the aggregation forest root `gSourceHead` (line
119), and the hook registration (`some n` models
`lua_sethook(L, hook, HOOKMASK, n)`, `none` a deregistered hook). -/
structure ProfState where
  gLastCount : Int
  gLastTime : Nat
  mw : MWState
  gSourceHead : List Source'
  hookCount : Option Int

/-- The state of a freshly loaded profiler: `gLastCount = 1` (line 58), time
and window zeroed, empty forest, no hook installed. -/
def initProf : ProfState :=
  ⟨1, 0, initMW, [], none⟩

/-- `countHook` (lines 226-248): compute the clamped elapsed time, derive
instructions per millisecond from the previous hook count, feed the median
window, clamp the median to at least 1, store it as `gLastCount`, re-arm the
hook with it, record the sampled stack (root to leaf) and finally set
`gLastTime` to a fresh timestamp `endTime` (line 247 calls `now()` again). -/
def countHook (cur : Nat) (stack : List FrameKey) (endTime : Nat)
    (s : ProfState) : ProfState :=
  let elapsed := hookElapsed cur s.gLastTime
  let ipms : Int := s.gLastCount * 1000 / (elapsed : Int)
  let upd := updateIPMSWin ipms s.mw
  let medIpms := if upd.1 < 1 then 1 else upd.1
  { gLastCount := medIpms
    gLastTime := endTime % 2 ^ 64
    mw := upd.2
    gSourceHead := recordPath stack s.gSourceHead
    hookCount := some medIpms }

/-- `countprof_start` (lines 273-277): arm the hook with the last count and
reset the time baseline to `t = now()`. -/
def countprof_start (t : Nat) (s : ProfState) : ProfState :=
  { s with hookCount := some s.gLastCount, gLastTime := t % 2 ^ 64 }

/-- `countprof_stop` (lines 279-282): deregister the hook; nothing else. -/
def countprof_stop (s : ProfState) : ProfState :=
  { s with hookCount := none }

/-- `countprof_dump` (lines 328-338): serialize the forest; the state is
returned unchanged (the forest is not cleared). -/
def countprof_dump (s : ProfState) : List String × ProfState :=
  (dumpSources s.gSourceHead [], s)

/-- The forest produced by recording one fixed root-to-leaf path `n` times
into an empty forest: one node per level of the path, no siblings, hit count
`n` at the leaf and 0 at every intermediate node. -/
def chainOf : List FrameKey → Nat → List Source'
  | [], _ => []
  | [k], n => [Source'.mk k.1 [Line'.mk k.2 n []]]
  | k :: ks, n => [Source'.mk k.1 [Line'.mk k.2 0 (chainOf ks n)]]

/-! ## Proofs about the median window -/

/-- The window invariant: both arrays have 19 entries, the cursor is in
range, the sorted view is sorted ascending and is a permutation of the
ring. -/
def Inv (s : MWState) : Prop :=
  s.gIPMSWin.length = WINSIZE ∧ s.gIPMSRing.length = WINSIZE ∧
    s.gIPMSRingIdx < WINSIZE ∧ s.gIPMSWin.Sorted (· ≤ ·) ∧
    s.gIPMSWin.Perm s.gIPMSRing

theorem getD_append_at (A : List Int) (b : Int) (C : List Int) :
    (A ++ b :: C).getD A.length 0 = b := by
  induction A with
  | nil => rfl
  | cons a A ih => simpa using ih

theorem set_append_at (A : List Int) (b y : Int) (C : List Int) :
    (A ++ b :: C).set A.length y = A ++ y :: C := by
  induction A with
  | nil => rfl
  | cons a A ih => simp [ih]

theorem sorted_append_iff {l₁ l₂ : List Int} :
    (l₁ ++ l₂).Sorted (· ≤ ·) ↔
      l₁.Sorted (· ≤ ·) ∧ l₂.Sorted (· ≤ ·) ∧ ∀ a ∈ l₁, ∀ b ∈ l₂, a ≤ b :=
  List.pairwise_append

/-- Correctness of the bubble-up repair loop: starting from a sorted array
with a hole at index `A.length` (the stale slot `c`), bubbling the new value
`x` up and writing it at the final index yields a sorted array that is a
permutation of `A ++ x :: C`. -/
theorem bubbleUp_spec (x : Int) (A : List Int) :
    ∀ (c : Int) (C : List Int),
      A.Sorted (· ≤ ·) → C.Sorted (· ≤ ·) →
      (∀ a ∈ A, ∀ b ∈ C, a ≤ b) → (∀ b ∈ C, x ≤ b) →
      (((bubbleUp x (A ++ c :: C) A.length).1.set
          (bubbleUp x (A ++ c :: C) A.length).2 x).Sorted (· ≤ ·)) ∧
      ((bubbleUp x (A ++ c :: C) A.length).1.set
          (bubbleUp x (A ++ c :: C) A.length).2 x).Perm (A ++ x :: C) := by
  induction A using List.reverseRecOn with
  | nil =>
    intro c C _ hC _ hxC
    refine ⟨?_, .refl _⟩
    simpa [bubbleUp] using ⟨hxC, hC⟩
  | append_singleton A a ih =>
    intro c C hA hC hAC hxC
    have hlen : (A ++ [a]).length = A.length + 1 := by simp
    have hget : ((A ++ [a]) ++ c :: C).getD A.length 0 = a := by
      rw [List.append_assoc]
      simpa using getD_append_at A a (c :: C)
    rw [hlen]
    rw [show bubbleUp x ((A ++ [a]) ++ c :: C) (A.length + 1)
        = if x < ((A ++ [a]) ++ c :: C).getD A.length 0 then
            bubbleUp x (((A ++ [a]) ++ c :: C).set (A.length + 1)
              (((A ++ [a]) ++ c :: C).getD A.length 0)) A.length
          else ((A ++ [a]) ++ c :: C, A.length + 1) from rfl]
    rw [hget]
    have hsetc : ((A ++ [a]) ++ c :: C).set (A.length + 1) a
        = A ++ a :: a :: C := by
      have := set_append_at (A ++ [a]) c a C
      rw [hlen] at this
      rw [this, List.append_assoc]
      rfl
    have hAparts := sorted_append_iff.1 hA
    have haA : ∀ a' ∈ A, a' ≤ a := fun a' h' => hAparts.2.2 a' h' a (by simp)
    by_cases hx : x < a
    · rw [if_pos hx, hsetc]
      have h1 : (a :: C).Sorted (· ≤ ·) := by
        refine List.sorted_cons.2 ⟨?_, hC⟩
        exact fun b hb => hAC a (by simp) b hb
      have h2 : ∀ a' ∈ A, ∀ b ∈ a :: C, a' ≤ b := by
        intro a' h' b hb
        rcases List.mem_cons.1 hb with hb | hb
        · exact hb ▸ haA a' h'
        · exact hAC a' (by simp [h']) b hb
      have h3 : ∀ b ∈ a :: C, x ≤ b := by
        intro b hb
        rcases List.mem_cons.1 hb with hb | hb
        · exact hb ▸ le_of_lt hx
        · exact hxC b hb
      obtain ⟨hs, hp⟩ := ih a (a :: C) hAparts.1 h1 h2 h3
      refine ⟨hs, hp.trans ?_⟩
      have hswap : (A ++ x :: a :: C).Perm (A ++ a :: x :: C) :=
        List.Perm.append_left A (List.Perm.swap a x C)
      have heq : A ++ a :: x :: C = (A ++ [a]) ++ x :: C := by simp
      exact heq ▸ hswap
    · rw [if_neg hx]
      have hax : a ≤ x := le_of_not_lt hx
      have hset : ((A ++ [a]) ++ c :: C).set (A.length + 1) x
          = (A ++ [a]) ++ x :: C := by
        have := set_append_at (A ++ [a]) c x C
        rwa [hlen] at this
      rw [hset]
      refine ⟨?_, .refl _⟩
      refine sorted_append_iff.2 ⟨hA, ?_, ?_⟩
      · refine List.sorted_cons.2 ⟨hxC, hC⟩
      · intro a' h' b hb
        have h'le : a' ≤ x := by
          rcases List.mem_append.1 h' with h' | h'
          · exact (haA a' h').trans hax
          · simp at h'
            exact h' ▸ hax
        rcases List.mem_cons.1 hb with hb | hb
        · exact hb ▸ h'le
        · exact hAC a' h' b hb

/-- Correctness of the bubble-down repair loop, stated on `bubbleDownAux`
with the fuel value `bubbleDown` passes at entry index `A.length`. -/
theorem bubbleDownAux_spec (x : Int) :
    ∀ (C A : List Int) (c : Int),
      A.Sorted (· ≤ ·) → C.Sorted (· ≤ ·) →
      (∀ a ∈ A, ∀ b ∈ C, a ≤ b) → (∀ a ∈ A, a ≤ x) →
      A.length + 1 + C.length = WINSIZE →
      (((bubbleDownAux x (A ++ c :: C) A.length
            (WINSIZE - 1 - A.length)).1.set
          (bubbleDownAux x (A ++ c :: C) A.length
            (WINSIZE - 1 - A.length)).2 x).Sorted (· ≤ ·)) ∧
      ((bubbleDownAux x (A ++ c :: C) A.length
            (WINSIZE - 1 - A.length)).1.set
          (bubbleDownAux x (A ++ c :: C) A.length
            (WINSIZE - 1 - A.length)).2 x).Perm (A ++ x :: C) := by
  intro C
  induction C with
  | nil =>
    intro A c hA _ _ hAx hlen
    have hfuel : WINSIZE - 1 - A.length = 0 := by
      simp at hlen
      omega
    rw [hfuel]
    rw [show bubbleDownAux x (A ++ [c]) A.length 0 = (A ++ [c], A.length) from rfl]
    rw [set_append_at A c x []]
    refine ⟨?_, .refl _⟩
    refine sorted_append_iff.2 ⟨hA, by simp, ?_⟩
    intro a h' b hb
    simp at hb
    exact hb ▸ hAx a h'
  | cons b C ih =>
    intro A c hA hC hAC hAx hlen
    have hfuel : WINSIZE - 1 - A.length = C.length + 1 := by
      simp at hlen ⊢
      omega
    rw [hfuel]
    have hget : (A ++ c :: b :: C).getD (A.length + 1) 0 = b := by
      have h := getD_append_at (A ++ [c]) b C
      simp only [List.append_assoc, List.singleton_append, List.length_append,
        List.length_singleton] at h
      exact h
    rw [show bubbleDownAux x (A ++ c :: b :: C) A.length (C.length + 1)
        = if (A ++ c :: b :: C).getD (A.length + 1) 0 < x then
            bubbleDownAux x ((A ++ c :: b :: C).set A.length
              ((A ++ c :: b :: C).getD (A.length + 1) 0)) (A.length + 1) C.length
          else (A ++ c :: b :: C, A.length) from rfl]
    rw [hget]
    have hCparts := List.sorted_cons.1 hC
    by_cases hx : b < x
    · rw [if_pos hx]
      have hset : (A ++ c :: b :: C).set A.length b = (A ++ [b]) ++ b :: C := by
        rw [set_append_at A c b (b :: C), List.append_assoc]
        rfl
      rw [hset]
      have hAb : ∀ a ∈ A, a ≤ b := fun a h' => hAC a h' b (by simp)
      have h1 : (A ++ [b]).Sorted (· ≤ ·) := by
        refine sorted_append_iff.2 ⟨hA, by simp, ?_⟩
        intro a h' b' hb'
        simp at hb'
        exact hb' ▸ hAb a h'
      have h2 : ∀ a ∈ A ++ [b], ∀ b' ∈ C, a ≤ b' := by
        intro a h' b' hb'
        rcases List.mem_append.1 h' with h' | h'
        · exact hAC a h' b' (by simp [hb'])
        · simp at h'
          exact h' ▸ hCparts.1 b' hb'
      have h3 : ∀ a ∈ A ++ [b], a ≤ x := by
        intro a h'
        rcases List.mem_append.1 h' with h' | h'
        · exact hAx a h'
        · simp at h'
          exact h' ▸ le_of_lt hx
      have h4 : (A ++ [b]).length + 1 + C.length = WINSIZE := by
        simp at hlen ⊢
        omega
      have := ih (A ++ [b]) b h1 hCparts.2 h2 h3 h4
      have hfuel2 : WINSIZE - 1 - (A ++ [b]).length = C.length := by
        simp at hlen ⊢
        omega
      rw [hfuel2] at this
      have hidx : (A ++ [b]).length = A.length + 1 := by simp
      rw [hidx] at this
      obtain ⟨hs, hp⟩ := this
      refine ⟨hs, hp.trans ?_⟩
      have hswap : (A ++ b :: x :: C).Perm (A ++ x :: b :: C) :=
        List.Perm.append_left A (List.Perm.swap x b C)
      have heq : A ++ b :: x :: C = (A ++ [b]) ++ x :: C := by simp
      exact heq ▸ hswap
    · rw [if_neg hx]
      have hbx : x ≤ b := le_of_not_lt hx
      rw [set_append_at A c x (b :: C)]
      refine ⟨?_, .refl _⟩
      refine sorted_append_iff.2 ⟨hA, ?_, ?_⟩
      · refine List.sorted_cons.2 ⟨?_, hC⟩
        intro b' hb'
        rcases List.mem_cons.1 hb' with hb' | hb'
        · exact hb' ▸ hbx
        · exact hbx.trans (hCparts.1 b' hb')
      · intro a h' b' hb'
        rcases List.mem_cons.1 hb' with hb' | hb'
        · exact hb' ▸ hAx a h'
        · rcases List.mem_cons.1 hb' with hb'' | hb''
          · exact hb'' ▸ hAC a h' b (by simp)
          · exact hAC a h' b' (by simp [hb''])

/-- The linear scan finds the first occurrence of any present value: the
index is in bounds and splits the array around that occurrence. -/
theorem scanEq_spec :
    ∀ (w : List Int) (v : Int), v ∈ w →
      scanEq w v < w.length ∧
        w = w.take (scanEq w v) ++ v :: w.drop (scanEq w v + 1) := by
  intro w
  induction w with
  | nil => intro v hv; cases hv
  | cons a as ih =>
    intro v hv
    by_cases hav : a = v
    · subst hav
      simp [scanEq]
    · have hv' : v ∈ as := by
        rcases List.mem_cons.1 hv with h | h
        · exact absurd h.symm hav
        · exact h
      obtain ⟨h1, h2⟩ := ih v hv'
      refine ⟨?_, ?_⟩
      · simpa [scanEq, hav] using h1
      · simp only [scanEq, if_neg hav]
        rw [List.take_succ_cons, List.drop_succ_cons]
        exact congrArg (a :: ·) h2

/-- Combined effect of the scan-and-bubble repair on a decomposed sorted
array: the new sorted view is sorted and is `A ++ rem :: C` with `rem`
replaced by the new value `x`, up to permutation. -/
theorem newWin_spec (x rem : Int) (A C : List Int)
    (hA : A.Sorted (· ≤ ·)) (hC : C.Sorted (· ≤ ·))
    (hArem : ∀ a ∈ A, a ≤ rem) (hremC : ∀ b ∈ C, rem ≤ b)
    (hAC : ∀ a ∈ A, ∀ b ∈ C, a ≤ b)
    (hlen : A.length + 1 + C.length = WINSIZE) :
    (((if x < rem then bubbleUp x (A ++ rem :: C) A.length
        else bubbleDown x (A ++ rem :: C) A.length).1.set
      (if x < rem then bubbleUp x (A ++ rem :: C) A.length
        else bubbleDown x (A ++ rem :: C) A.length).2 x).Sorted (· ≤ ·)) ∧
    ((if x < rem then bubbleUp x (A ++ rem :: C) A.length
        else bubbleDown x (A ++ rem :: C) A.length).1.set
      (if x < rem then bubbleUp x (A ++ rem :: C) A.length
        else bubbleDown x (A ++ rem :: C) A.length).2 x).Perm (A ++ x :: C) := by
  by_cases hx : x < rem
  · rw [if_pos hx]
    exact bubbleUp_spec x A rem C hA hC hAC
      (fun b hb => (le_of_lt hx).trans (hremC b hb))
  · rw [if_neg hx]
    unfold bubbleDown
    exact bubbleDownAux_spec x C A rem hA hC hAC
      (fun a ha => (hArem a ha).trans (le_of_not_lt hx)) hlen

/-- One `updateIPMSWin` step preserves the window invariant; moreover the new
ring is the old ring with the new value written at the advanced cursor, and
the returned median is the middle element of the new sorted view. -/
theorem updateIPMSWin_spec (x : Int) (s : MWState) (h : Inv s) :
    Inv (updateIPMSWin x s).2 ∧
    (updateIPMSWin x s).2.gIPMSRingIdx
      = (if s.gIPMSRingIdx + 1 ≥ WINSIZE then 0 else s.gIPMSRingIdx + 1) ∧
    (updateIPMSWin x s).2.gIPMSRing
      = s.gIPMSRing.set (updateIPMSWin x s).2.gIPMSRingIdx x ∧
    (updateIPMSWin x s).1
      = (updateIPMSWin x s).2.gIPMSWin.getD (WINSIZE / 2) 0 := by
  obtain ⟨hwl, hrl, _hil, hsort, hperm⟩ := h
  have hfields : (updateIPMSWin x s).2.gIPMSRingIdx
        = (if s.gIPMSRingIdx + 1 ≥ WINSIZE then 0 else s.gIPMSRingIdx + 1) ∧
      (updateIPMSWin x s).2.gIPMSRing
        = s.gIPMSRing.set (updateIPMSWin x s).2.gIPMSRingIdx x ∧
      (updateIPMSWin x s).1
        = (updateIPMSWin x s).2.gIPMSWin.getD (WINSIZE / 2) 0 :=
    ⟨rfl, rfl, rfl⟩
  refine ⟨?_, hfields⟩
  -- notation for the pieces of the update
  have hidx : (if s.gIPMSRingIdx + 1 ≥ WINSIZE then 0 else s.gIPMSRingIdx + 1)
      < WINSIZE := by
    unfold WINSIZE
    split <;> omega
  set idx := if s.gIPMSRingIdx + 1 ≥ WINSIZE then 0 else s.gIPMSRingIdx + 1
    with hidxdef
  set rem := s.gIPMSRing.getD idx 0 with hremdef
  have hridx : idx < s.gIPMSRing.length := hrl.symm ▸ hidx
  have hremmem : rem ∈ s.gIPMSRing := by
    rw [hremdef, List.getD_eq_getElem _ _ hridx]
    exact List.getElem_mem _
  have hmemw : rem ∈ s.gIPMSWin := hperm.mem_iff.2 hremmem
  obtain ⟨hi, hwdecomp⟩ := scanEq_spec s.gIPMSWin rem hmemw
  set i := scanEq s.gIPMSWin rem with hidef
  set A := s.gIPMSWin.take i with hAdef
  set C := s.gIPMSWin.drop (i + 1) with hCdef
  have hAlen : A.length = i := by
    rw [hAdef, List.length_take]
    omega
  have hABClen : A.length + 1 + C.length = WINSIZE := by
    have := congrArg List.length hwdecomp
    simp at this
    omega
  -- sortedness facts for the decomposition
  have hsplit := sorted_append_iff.1 (hwdecomp ▸ hsort)
  have hCsorted : C.Sorted (· ≤ ·) := (List.sorted_cons.1 hsplit.2.1).2
  have hremC : ∀ b ∈ C, rem ≤ b := (List.sorted_cons.1 hsplit.2.1).1
  have hArem : ∀ a ∈ A, a ≤ rem := fun a ha => hsplit.2.2 a ha rem (by simp)
  have hAC : ∀ a ∈ A, ∀ b ∈ C, a ≤ b := fun a ha b hb =>
    hsplit.2.2 a ha b (by simp [hb])
  obtain ⟨hs', hp'⟩ := newWin_spec x rem A C hsplit.1 hCsorted hArem hremC
    hAC hABClen
  -- the new sorted view is exactly the set-after-bubble term of the lemma
  have hwin : (updateIPMSWin x s).2.gIPMSWin
      = ((if x < rem then bubbleUp x (A ++ rem :: C) A.length
          else bubbleDown x (A ++ rem :: C) A.length).1.set
        (if x < rem then bubbleUp x (A ++ rem :: C) A.length
          else bubbleDown x (A ++ rem :: C) A.length).2 x) := by
    show ((if x < rem then bubbleUp x s.gIPMSWin i
          else bubbleDown x s.gIPMSWin i).1.set
        (if x < rem then bubbleUp x s.gIPMSWin i
          else bubbleDown x s.gIPMSWin i).2 x) = _
    rw [← hAlen, ← hwdecomp]
  -- decompose the ring at the cursor
  have hrdecomp : s.gIPMSRing
      = s.gIPMSRing.take idx ++ rem :: s.gIPMSRing.drop (idx + 1) := by
    conv_lhs => rw [← List.take_append_drop idx s.gIPMSRing]
    rw [List.drop_eq_getElem_cons hridx]
    rw [hremdef, List.getD_eq_getElem _ _ hridx]
  set RA := s.gIPMSRing.take idx with hRAdef
  set RC := s.gIPMSRing.drop (idx + 1) with hRCdef
  have hRAlen : RA.length = idx := by
    rw [hRAdef, List.length_take]
    omega
  have hring : (updateIPMSWin x s).2.gIPMSRing = RA ++ x :: RC := by
    show s.gIPMSRing.set idx x = _
    conv_lhs => rw [hrdecomp, ← hRAlen]
    exact set_append_at RA rem x RC
  -- permutation chain from the new sorted view to the new ring
  have hmid1 : (A ++ x :: C).Perm (x :: (A ++ C)) := List.perm_middle
  have hmid2 : (RA ++ x :: RC).Perm (x :: (RA ++ RC)) := List.perm_middle
  have hcancel : (A ++ C).Perm (RA ++ RC) := by
    have h1 : (rem :: (A ++ C)).Perm (rem :: (RA ++ RC)) := by
      refine List.Perm.trans List.perm_middle.symm ?_
      refine List.Perm.trans ?_ List.perm_middle
      rw [← hwdecomp, ← hrdecomp]
      exact hperm
    exact h1.cons_inv
  have hpr : ((updateIPMSWin x s).2.gIPMSWin).Perm
      ((updateIPMSWin x s).2.gIPMSRing) := by
    rw [hwin, hring]
    exact hp'.trans (hmid1.trans ((hcancel.cons x).trans hmid2.symm))
  refine ⟨?_, ?_, ?_, ?_, hpr⟩
  · rw [hwin]
    have := hp'.length_eq
    simp only [List.length_append, List.length_cons] at this ⊢
    omega
  · show (s.gIPMSRing.set idx x).length = WINSIZE
    rw [List.length_set]
    exact hrl
  · exact hidx
  · rw [hwin]
    exact hs'

theorem inv_initMW : Inv initMW := by
  refine ⟨rfl, rfl, by decide, by decide, .refl _⟩

theorem feedMW_snoc (xs : List Int) (x : Int) :
    feedMW (xs ++ [x]) = (updateIPMSWin x (feedMW xs)).2 := by
  simp [feedMW, List.foldl_append]

theorem inv_feedMW (xs : List Int) : Inv (feedMW xs) := by
  induction xs using List.reverseRecOn with
  | nil => exact inv_initMW
  | append_singleton xs x ih =>
    rw [feedMW_snoc]
    exact (updateIPMSWin_spec x (feedMW xs) ih).1

/-! ### Positional bookkeeping for the ring

After `k` samples the ring slot `j` holds the value at history position
`k + (j + 37 - k % 19) % 19` of `histFull` (the unique position in
`[k, k + 18]` congruent to `j + 18 mod 19`): sample number `t` (1-based) is
written to slot `t % 19`, and a slot that was never written still holds its
initial zero, which is the value of the corresponding history position among
the initial zeros. -/
def RingPos (xs : List Int) (s : MWState) : Prop :=
  s.gIPMSRingIdx = xs.length % 19 ∧
    ∀ j < 19, s.gIPMSRing.getD j 0
      = (histFull xs).getD (xs.length + (j + 37 - xs.length % 19) % 19) 0

theorem getD_replicate {n i : Nat} (a d : Int) (h : i < n) :
    (List.replicate n a).getD i d = a := by
  induction n generalizing i with
  | zero => omega
  | succ n ih =>
    cases i with
    | zero => rfl
    | succ i => simpa [List.replicate_succ] using ih (by omega)

theorem getD_set_self (l : List Int) (i : Nat) (a d : Int) (h : i < l.length) :
    (l.set i a).getD i d = a := by
  induction l generalizing i with
  | nil => simp at h
  | cons b l ih =>
    cases i with
    | zero => rfl
    | succ i => simpa using ih i (by simpa using h)

theorem getD_set_ne (l : List Int) (i j : Nat) (a d : Int) (h : i ≠ j) :
    (l.set i a).getD j d = l.getD j d := by
  induction l generalizing i j with
  | nil => simp
  | cons b l ih =>
    cases i with
    | zero =>
      cases j with
      | zero => exact absurd rfl h
      | succ j => simp
    | succ i =>
      cases j with
      | zero => rfl
      | succ j => simpa using ih i j (by omega)

theorem histFull_length (xs : List Int) :
    (histFull xs).length = 19 + xs.length := by
  simp [histFull, WINSIZE]
  omega

theorem histFull_snoc (xs : List Int) (x : Int) :
    histFull (xs ++ [x]) = histFull xs ++ [x] := by
  simp [histFull]

theorem ringPos_initMW : RingPos [] initMW := by
  refine ⟨rfl, ?_⟩
  intro j hj
  have h1 : (List.replicate WINSIZE (0 : Int)).getD j 0 = 0 :=
    getD_replicate 0 0 (by simpa [WINSIZE] using hj)
  have h2 : (histFull []).getD (0 + (j + 37 - 0 % 19) % 19) 0 = 0 := by
    have hlt : (0 + (j + 37 - 0 % 19) % 19) < 19 := by omega
    simp only [histFull, List.append_nil]
    exact getD_replicate 0 0 (by simpa [WINSIZE] using hlt)
  simpa [initMW] using h1.trans h2.symm

theorem ringPos_step (xs : List Int) (x : Int) (s : MWState)
    (hlen : s.gIPMSRing.length = WINSIZE) (hp : RingPos xs s) :
    RingPos (xs ++ [x]) (updateIPMSWin x s).2 := by
  obtain ⟨hpi, hpj⟩ := hp
  have hridx : (updateIPMSWin x s).2.gIPMSRingIdx
      = (if s.gIPMSRingIdx + 1 ≥ WINSIZE then 0 else s.gIPMSRingIdx + 1) := rfl
  have hrring : (updateIPMSWin x s).2.gIPMSRing
      = s.gIPMSRing.set (updateIPMSWin x s).2.gIPMSRingIdx x := rfl
  have hidx' : (updateIPMSWin x s).2.gIPMSRingIdx = (xs.length + 1) % 19 := by
    rw [hridx, hpi]
    unfold WINSIZE
    split <;> omega
  constructor
  · simpa using hidx'
  · intro j hj
    rw [hrring, hidx']
    by_cases hje : j = (xs.length + 1) % 19
    · subst hje
      have hlt : (xs.length + 1) % 19 < s.gIPMSRing.length := by
        rw [hlen]
        unfold WINSIZE
        omega
      rw [getD_set_self _ _ _ _ hlt]
      have hpos : (xs ++ [x]).length
            + ((xs.length + 1) % 19 + 37 - (xs ++ [x]).length % 19) % 19
          = (histFull xs).length := by
        rw [histFull_length]
        simp only [List.length_append, List.length_singleton]
        omega
      rw [histFull_snoc, hpos, getD_append_at (histFull xs) x []]
    · rw [getD_set_ne _ _ _ _ _ (fun hc => hje hc.symm), hpj j hj]
      have hpos : (xs ++ [x]).length
            + (j + 37 - (xs ++ [x]).length % 19) % 19
          = xs.length + (j + 37 - xs.length % 19) % 19 := by
        simp only [List.length_append, List.length_singleton]
        omega
      have hbound : xs.length + (j + 37 - xs.length % 19) % 19
          < (histFull xs).length := by
        rw [histFull_length]
        omega
      rw [histFull_snoc, hpos, List.getD_append _ _ _ _ hbound]

theorem ringPos_feedMW (xs : List Int) : RingPos xs (feedMW xs) := by
  induction xs using List.reverseRecOn with
  | nil => exact ringPos_initMW
  | append_singleton xs x ih =>
    rw [feedMW_snoc]
    exact ringPos_step xs x (feedMW xs) (inv_feedMW xs).2.1 ih

/-- The ring of a reachable state is a rotation of the window of the most
recent 19 values, hence a permutation of it. -/
theorem ring_perm_recent (xs : List Int) (s : MWState)
    (hlen : s.gIPMSRing.length = WINSIZE) (hp : RingPos xs s) :
    s.gIPMSRing.Perm (recent19 xs) := by
  have hreclen : (recent19 xs).length = 19 := by
    simp only [recent19, List.length_drop, histFull_length]
    omega
  have hrot : s.gIPMSRing = (recent19 xs).rotate ((37 - xs.length % 19) % 19) := by
    apply List.ext_getElem
    · rw [List.length_rotate, hreclen, hlen]
      rfl
    · intro j hj1 hj2
      have hj : j < 19 := by
        rw [hlen] at hj1
        simpa [WINSIZE] using hj1
      have h1 : s.gIPMSRing[j] = s.gIPMSRing.getD j 0 :=
        (List.getD_eq_getElem _ _ hj1).symm
      have h2 := hp.2 j hj
      have hposlt : xs.length + (j + 37 - xs.length % 19) % 19
          < (histFull xs).length := by
        rw [histFull_length]
        omega
      have hidxeq : (j + (37 - xs.length % 19) % 19) % (recent19 xs).length
          = (j + 37 - xs.length % 19) % 19 := by
        rw [hreclen]
        omega
      have hjrec : j < (recent19 xs).length := by
        rw [hreclen]
        exact hj
      have hmlt : (j + 37 - xs.length % 19) % 19 < (recent19 xs).length := by
        rw [hreclen]
        omega
      apply Option.some.inj
      rw [← List.getElem?_eq_getElem hj1, ← List.getElem?_eq_getElem hj2]
      rw [List.getElem?_rotate hjrec, hidxeq]
      rw [List.getElem?_eq_getElem hj1, List.getElem?_eq_getElem hmlt]
      congr 1
      rw [← List.getD_eq_getElem s.gIPMSRing 0 hj1, h2,
        List.getD_eq_getElem _ _ hposlt]
      simp only [recent19]
      rw [List.getElem_drop]
  rw [hrot]
  exact List.rotate_perm _ _

/-- The median returned by `updateIPMSWin` on any reachable state is the
middle element of the ascending sort of the most recent 19 values. -/
theorem median_correct (xs : List Int) (x : Int) :
    (updateIPMSWin x (feedMW xs)).1
      = (List.insertionSort (· ≤ ·) (recent19 (xs ++ [x]))).getD 9 0 := by
  obtain ⟨hInv', _hidx', _hring', hmed⟩ :=
    updateIPMSWin_spec x (feedMW xs) (inv_feedMW xs)
  have hstate : (updateIPMSWin x (feedMW xs)).2 = feedMW (xs ++ [x]) :=
    (feedMW_snoc xs x).symm
  rw [hstate] at hInv' hmed
  obtain ⟨hwl, hrl, _, hsort, hperm⟩ := hInv'
  have hrp := ringPos_feedMW (xs ++ [x])
  have hwrec : (feedMW (xs ++ [x])).gIPMSWin.Perm (recent19 (xs ++ [x])) :=
    hperm.trans (ring_perm_recent (xs ++ [x]) _ hrl hrp)
  have heq : (feedMW (xs ++ [x])).gIPMSWin
      = List.insertionSort (· ≤ ·) (recent19 (xs ++ [x])) := by
    refine List.eq_of_perm_of_sorted ?_ hsort (List.sorted_insertionSort _ _)
    exact hwrec.trans (List.perm_insertionSort _ _).symm
  rw [hmed, heq]
  rfl

/-! ### The checked model agrees with the plain model on reachable states -/

theorem scanIdx_eq (w : List Int) (v : Int) (h : v ∈ w) :
    scanIdx w v = some (scanEq w v) := by
  induction w with
  | nil => cases h
  | cons a as ih =>
    by_cases hav : a = v
    · simp [scanIdx, scanEq, hav]
    · have hv' : v ∈ as := by
        rcases List.mem_cons.1 h with h' | h'
        · exact absurd h'.symm hav
        · exact h'
      simp [scanIdx, scanEq, hav, ih hv']

theorem bubbleUp_length (x : Int) :
    ∀ (i : Nat) (w : List Int),
      (bubbleUp x w i).1.length = w.length ∧ (bubbleUp x w i).2 ≤ i := by
  intro i
  induction i with
  | zero => intro w; exact ⟨rfl, le_refl 0⟩
  | succ i ih =>
    intro w
    rw [bubbleUp]
    split
    · obtain ⟨h1, h2⟩ := ih (w.set (i + 1) (w.getD i 0))
      rw [h1, List.length_set]
      exact ⟨rfl, h2.trans (by omega)⟩
    · exact ⟨rfl, le_refl _⟩

theorem bubbleDownAux_length (x : Int) :
    ∀ (fuel : Nat) (w : List Int) (i : Nat),
      (bubbleDownAux x w i fuel).1.length = w.length ∧
        (bubbleDownAux x w i fuel).2 ≤ i + fuel := by
  intro fuel
  induction fuel with
  | zero => intro w i; exact ⟨rfl, Nat.le_refl i⟩
  | succ fuel ih =>
    intro w i
    rw [bubbleDownAux]
    split
    · obtain ⟨h1, h2⟩ := ih (w.set i (w.getD (i + 1) 0)) (i + 1)
      rw [h1, List.length_set]
      exact ⟨rfl, h2.trans (by omega)⟩
    · exact ⟨rfl, by omega⟩

theorem bubbleUpChecked_eq (x : Int) :
    ∀ (i : Nat) (w : List Int), w.length = WINSIZE → i < WINSIZE →
      bubbleUpChecked x w i = some (bubbleUp x w i) := by
  intro i
  induction i with
  | zero => intro w _ _; rfl
  | succ i ih =>
    intro w hw hi
    have hilt : i < w.length := by
      rw [hw]
      unfold WINSIZE at hi ⊢
      omega
    have hi1lt : i + 1 < w.length := by
      rw [hw]
      unfold WINSIZE at hi ⊢
      omega
    have hget : w[i]? = some (w.getD i 0) := by
      rw [List.getElem?_eq_getElem hilt, List.getD_eq_getElem _ _ hilt]
    simp only [bubbleUpChecked, bubbleUp, hget]
    split
    · have hrec := ih (w.set (i + 1) (w.getD i 0)) (by simpa using hw)
        (by unfold WINSIZE at hi ⊢; omega)
      simp [hi1lt]
      simp only [List.getD_eq_getElem?_getD] at hrec
      exact hrec
    · rfl

theorem bubbleDownCheckedAux_eq (x : Int) :
    ∀ (fuel : Nat) (w : List Int) (i : Nat), w.length = WINSIZE →
      i + fuel ≤ WINSIZE - 1 →
      bubbleDownCheckedAux x w i fuel = some (bubbleDownAux x w i fuel) := by
  intro fuel
  induction fuel with
  | zero => intro w i _ _; rfl
  | succ fuel ih =>
    intro w i hw hif
    have h1 : i + 1 < w.length := by
      rw [hw]
      unfold WINSIZE at hif ⊢
      omega
    have hget : w[i + 1]? = some (w.getD (i + 1) 0) := by
      rw [List.getElem?_eq_getElem h1, List.getD_eq_getElem _ _ h1]
    simp only [bubbleDownCheckedAux, bubbleDownAux, hget]
    split
    · rw [if_pos (by omega : i < w.length)]
      exact ih (w.set i (w.getD (i + 1) 0)) (i + 1) (by simpa using hw)
        (by omega)
    · rfl

/-- On any state satisfying the window invariant, the fully bounds-checked
`updateIPMSWin` succeeds and returns exactly the plain model's result. -/
theorem updateIPMSWinChecked_eq (x : Int) (s : MWState) (h : Inv s) :
    updateIPMSWinChecked x s = some (updateIPMSWin x s) := by
  obtain ⟨hwl, hrl, _hil, _hsort, hperm⟩ := h
  have hidx : (if s.gIPMSRingIdx + 1 ≥ WINSIZE then 0 else s.gIPMSRingIdx + 1)
      < WINSIZE := by
    unfold WINSIZE
    split <;> omega
  set idx := if s.gIPMSRingIdx + 1 ≥ WINSIZE then 0 else s.gIPMSRingIdx + 1
    with hidxdef
  have hridx : idx < s.gIPMSRing.length := hrl.symm ▸ hidx
  have hget : s.gIPMSRing[idx]? = some (s.gIPMSRing.getD idx 0) := by
    rw [List.getElem?_eq_getElem hridx, List.getD_eq_getElem _ _ hridx]
  set rem := s.gIPMSRing.getD idx 0 with hremdef
  have hremmem : rem ∈ s.gIPMSRing := by
    rw [hremdef, List.getD_eq_getElem _ _ hridx]
    exact List.getElem_mem _
  have hmemw : rem ∈ s.gIPMSWin := hperm.mem_iff.2 hremmem
  have hscan : scanIdx s.gIPMSWin rem = some (scanEq s.gIPMSWin rem) :=
    scanIdx_eq _ _ hmemw
  have hi19 : scanEq s.gIPMSWin rem < WINSIZE :=
    hwl ▸ (scanEq_spec _ _ hmemw).1
  set i := scanEq s.gIPMSWin rem with hidef
  have hbu : (if x < rem then bubbleUpChecked x s.gIPMSWin i
        else bubbleDownChecked x s.gIPMSWin i)
      = some (if x < rem then bubbleUp x s.gIPMSWin i
        else bubbleDown x s.gIPMSWin i) := by
    split
    · exact bubbleUpChecked_eq x i s.gIPMSWin hwl hi19
    · unfold bubbleDownChecked bubbleDown
      exact bubbleDownCheckedAux_eq x (WINSIZE - 1 - i) s.gIPMSWin i hwl
        (by omega)
  set bu := if x < rem then bubbleUp x s.gIPMSWin i
    else bubbleDown x s.gIPMSWin i with hbudef
  have hbulen : bu.1.length = WINSIZE ∧ bu.2 ≤ WINSIZE - 1 := by
    rw [hbudef]
    split
    · obtain ⟨h1, h2⟩ := bubbleUp_length x i s.gIPMSWin
      exact ⟨by rw [h1, hwl], by unfold WINSIZE at hi19 ⊢; omega⟩
    · obtain ⟨h1, h2⟩ := bubbleDownAux_length x (WINSIZE - 1 - i) s.gIPMSWin i
      refine ⟨by rw [show bubbleDown x s.gIPMSWin i
          = bubbleDownAux x s.gIPMSWin i (WINSIZE - 1 - i) from rfl, h1, hwl], ?_⟩
      rw [show bubbleDown x s.gIPMSWin i
          = bubbleDownAux x s.gIPMSWin i (WINSIZE - 1 - i) from rfl]
      omega
  have hjlt : bu.2 < bu.1.length := by
    rw [hbulen.1]
    unfold WINSIZE at hbulen ⊢
    omega
  have hmedlt : WINSIZE / 2 < (bu.1.set bu.2 x).length := by
    rw [List.length_set, hbulen.1]
    unfold WINSIZE
    omega
  have hmed : (bu.1.set bu.2 x)[WINSIZE / 2]?
      = some ((bu.1.set bu.2 x).getD (WINSIZE / 2) 0) := by
    rw [List.getElem?_eq_getElem hmedlt, List.getD_eq_getElem _ _ hmedlt]
  simp only [updateIPMSWinChecked, updateIPMSWin, hget, hscan, hbu, hmed,
    if_pos hridx, if_pos hjlt]

/-! ## Proofs about the call-tree aggregator and the serializer -/

theorem llfind_none {α κ : Type} [DecidableEq κ] (key : α → κ) (k : κ) :
    ∀ (l : List α), (∀ a ∈ l, key a ≠ k) → llfind key k l = none := by
  intro l
  induction l with
  | nil => intro _; rfl
  | cons a as ih =>
    intro h
    rw [llfind, if_neg (h a (by simp)), ih (fun b hb => h b (by simp [hb]))]
    rfl

theorem llfind_found {α κ : Type} [DecidableEq κ] (key : α → κ) (k : κ) :
    ∀ (A : List α) (n : α) (B : List α), key n = k → (∀ a ∈ A, key a ≠ k) →
      llfind key k (A ++ n :: B) = some (n, A ++ B) := by
  intro A
  induction A with
  | nil =>
    intro n B hn _
    simp [llfind, hn]
  | cons a A ih =>
    intro n B hn hA
    rw [List.cons_append, llfind, if_neg (hA a (by simp)),
      ih n B hn (fun b hb => hA b (by simp [hb]))]
    rfl

theorem getLine_absent (head : List Line') (k : Int)
    (h : ∀ l ∈ head, l.line ≠ k) :
    getLine head k = (Line'.mk k 0 [], head) := by
  rw [getLine, llfind_none Line'.line k head h]

theorem getLine_present (A : List Line') (n : Line') (B : List Line') (k : Int)
    (hn : n.line = k) (hA : ∀ l ∈ A, l.line ≠ k) :
    getLine (A ++ n :: B) k = (n, A ++ B) := by
  rw [getLine, llfind_found Line'.line k A n B hn hA]

theorem getSource_absent (head : List Source') (k : String)
    (h : ∀ s ∈ head, s.source ≠ k) :
    getSource head k = (Source'.mk k [], head) := by
  rw [getSource, llfind_none Source'.source k head h]

theorem getSource_present (A : List Source') (n : Source') (B : List Source')
    (k : String) (hn : n.source = k) (hA : ∀ s ∈ A, s.source ≠ k) :
    getSource (A ++ n :: B) k = (n, A ++ B) := by
  rw [getSource, llfind_found Source'.source k A n B hn hA]

theorem recordPath_nil_forest :
    ∀ (ks : List FrameKey), ks ≠ [] → recordPath ks [] = chainOf ks 1 := by
  intro ks
  induction ks with
  | nil => intro h; exact absurd rfl h
  | cons k ks ih =>
    intro _
    cases ks with
    | nil =>
      simp [recordPath, chainOf, getSource, getLine, llfind,
        Source'.source, Source'.lineHead, Line'.line, Line'.count,
        Line'.callHead]
    | cons k' ks' =>
      simp [recordPath, chainOf, getSource, getLine, llfind,
        Source'.source, Source'.lineHead, Line'.line, Line'.count,
        Line'.callHead, ih (by simp)]

theorem recordPath_chainOf :
    ∀ (ks : List FrameKey) (n : Nat), ks ≠ [] →
      recordPath ks (chainOf ks n) = chainOf ks (n + 1) := by
  intro ks
  induction ks with
  | nil => intro n h; exact absurd rfl h
  | cons k ks ih =>
    intro n _
    cases ks with
    | nil =>
      simp [recordPath, chainOf, getSource, getLine, llfind,
        Source'.source, Source'.lineHead, Line'.line, Line'.count,
        Line'.callHead]
    | cons k' ks' =>
      simp [recordPath, chainOf, getSource, getLine, llfind,
        Source'.source, Source'.lineHead, Line'.line, Line'.count,
        Line'.callHead, ih n (by simp)]

theorem iterate_recordPath (ks : List FrameKey) (hne : ks ≠ []) :
    ∀ n, (recordPath ks)^[n + 1] [] = chainOf ks (n + 1) := by
  intro n
  induction n with
  | zero => simpa using recordPath_nil_forest ks hne
  | succ n ih =>
    rw [Function.iterate_succ_apply', ih, recordPath_chainOf ks (n + 1) hne]

/-- Joint induction (on an upper size bound) showing that the serializer
emits exactly the rendered node entries, in traversal order. -/
theorem dump_entries_sized :
    ∀ N : Nat,
      (∀ (f : List Source') (pref : List FrameKey), sizeOf f ≤ N →
        dumpSources f pref = (entriesSources f pref).map renderEntry) ∧
      (∀ (sname : String) (ls : List Line') (pref : List FrameKey),
        sizeOf ls ≤ N →
        dumpLines sname ls pref = (entriesLines sname ls pref).map renderEntry) := by
  intro N
  induction N with
  | zero =>
    constructor
    · intro f pref h
      cases f <;> simp at h
    · intro sname ls pref h
      cases ls <;> simp at h
  | succ N ih =>
    constructor
    · intro f pref h
      cases f with
      | nil => simp [dumpSources, entriesSources]
      | cons s rest =>
        cases s with
        | mk sname lines =>
          have h1 : sizeOf lines ≤ N := by
            simp at h
            omega
          have h2 : sizeOf rest ≤ N := by
            simp at h
            omega
          simp only [dumpSources, entriesSources, List.map_append]
          rw [ih.2 sname lines pref h1, ih.1 rest pref h2]
    · intro sname ls pref h
      cases ls with
      | nil => simp [dumpLines, entriesLines]
      | cons l rest =>
        cases l with
        | mk lno cnt kids =>
          have h1 : sizeOf kids ≤ N := by
            simp at h
            omega
          have h2 : sizeOf rest ≤ N := by
            simp at h
            omega
          simp only [dumpLines, entriesLines, List.map_append]
          rw [ih.1 kids ((sname, lno) :: pref) h1, ih.2 sname rest pref h2]
          by_cases hk : kids = []
          · subst hk
            simp [entriesSources]
          · have : kids.isEmpty = false := by
              simpa [List.isEmpty_iff] using hk
            simp [this]

theorem dump_eq_entries (f : List Source') (pref : List FrameKey) :
    dumpSources f pref = (entriesSources f pref).map renderEntry :=
  (dump_entries_sized (sizeOf f)).1 f pref (le_refl _)

/-! ## Profiler-level helpers -/

/-- The stack of the spec's end-to-end scenario, root to leaf. -/
def scenarioStack : List FrameKey := [("mod.lua", 10), ("mod.lua", 20)]

theorem countHook_gSourceHead (cur : Nat) (stack : List FrameKey)
    (endTime : Nat) (s : ProfState) :
    (countHook cur stack endTime s).gSourceHead
      = recordPath stack s.gSourceHead := rfl

/-- Five interrupts with the scenario stack, starting from an empty forest,
dump to exactly two lines: the leaf path with count 5, then the intermediate
node's own line with count 0. -/
theorem dump_after_five (s : ProfState) (h : s.gSourceHead = [])
    (t1 t2 t3 t4 t5 e1 e2 e3 e4 e5 : Nat) :
    (countprof_dump (countHook t5 scenarioStack e5 (countHook t4 scenarioStack
      e4 (countHook t3 scenarioStack e3 (countHook t2 scenarioStack e2
        (countHook t1 scenarioStack e1 s)))))).1
      = ["mod.lua:10;mod.lua:20 5", "mod.lua:10 0"] := by
  have hne : scenarioStack ≠ [] := by simp [scenarioStack]
  have hforest : (countHook t5 scenarioStack e5 (countHook t4 scenarioStack
      e4 (countHook t3 scenarioStack e3 (countHook t2 scenarioStack e2
        (countHook t1 scenarioStack e1 s))))).gSourceHead
      = chainOf scenarioStack 5 := by
    simp only [countHook_gSourceHead, h]
    rw [recordPath_nil_forest _ hne, recordPath_chainOf _ _ hne,
      recordPath_chainOf _ _ hne, recordPath_chainOf _ _ hne,
      recordPath_chainOf _ _ hne]
  show dumpSources (countHook t5 scenarioStack e5 (countHook t4 scenarioStack
      e4 (countHook t3 scenarioStack e3 (countHook t2 scenarioStack e2
        (countHook t1 scenarioStack e1 s))))).gSourceHead [] = _
  rw [hforest]
  simp [chainOf, scenarioStack, dumpSources, dumpLines, renderEntry,
    renderPath, renderFrame]
  exact ⟨by rfl, by rfl⟩

/-- The `elapsed` value is the `uint64` wrap of the difference, clamped to a
1-microsecond floor. -/
theorem hookElapsed_mod (now last : Nat) (h1 : now < 2 ^ 64)
    (h2 : last < 2 ^ 64) :
    (hookElapsed now last : Int) = max (((now : Int) - last) % 2 ^ 64) 1 := by
  simp only [hookElapsed]
  rw [max_def]
  split <;> split <;> omega

/-! ## Claim theorems -/

/-- A fixed sample sequence of 21 integers used to witness the median
claim. -/
def demoSamples : List Int :=
  [3, -1, 4, 1, -5, 9, 2, 6, 5, 3, 5, -8, 9, 7, 9, 3, 2, 3, 8, 4, 6]

/-- C1: for every sequence of more than 19 integers fed one at a time to the
Median Window, the value returned after each insertion is the element at
index 9 of the ascending sort of the most recent 19 values (the initial
zeros count as window contents until overwritten). -/
theorem median_window_correct (xs : List Int) (_hlen : 19 < xs.length)
    (k : Nat) (hk : k < xs.length) :
    (updateIPMSWin (xs.getD k 0) (feedMW (xs.take k))).1
      = (List.insertionSort (· ≤ ·) (recent19 (xs.take (k + 1)))).getD 9 0 := by
  have htake : xs.take (k + 1) = xs.take k ++ [xs.getD k 0] := by
    rw [List.take_succ, List.getElem?_eq_getElem hk,
      List.getD_eq_getElem xs 0 hk]
    rfl
  rw [htake]
  exact median_correct (xs.take k) (xs.getD k 0)

theorem median_window_correct_witness :
    19 < demoSamples.length ∧ 20 < demoSamples.length ∧
    (updateIPMSWin (demoSamples.getD 20 0) (feedMW (demoSamples.take 20))).1
      = (List.insertionSort (· ≤ ·)
          (recent19 (demoSamples.take (20 + 1)))).getD 9 0 :=
  ⟨by decide, by decide,
    median_window_correct demoSamples (by decide) 20 (by decide)⟩

/-- C2 (amended): starting from a profiler whose forest is empty, 5
interrupts 100 microseconds apart, each sampling the fixed stack
`mod.lua:10 ; mod.lua:20`, followed by a dump, produce exactly two output
lines: `mod.lua:10;mod.lua:20 5` for the leaf, then `mod.lua:10 0` for the
intermediate node (the serializer emits a line for every node, including the
count-0 intermediate, so the dump is not the single line the claim
states). -/
theorem dump_scenario_exact_output (s : ProfState) (h : s.gSourceHead = []) :
    (countprof_dump (countHook 500 scenarioStack 500 (countHook 400
      scenarioStack 400 (countHook 300 scenarioStack 300 (countHook 200
        scenarioStack 200 (countHook 100 scenarioStack 100 s)))))).1
      = ["mod.lua:10;mod.lua:20 5", "mod.lua:10 0"] :=
  dump_after_five s h 100 200 300 400 500 100 200 300 400 500

theorem dump_scenario_exact_output_witness :
    (countprof_start 0 initProf).gSourceHead = [] ∧
    (countprof_dump (countHook 500 scenarioStack 500 (countHook 400
      scenarioStack 400 (countHook 300 scenarioStack 300 (countHook 200
        scenarioStack 200 (countHook 100 scenarioStack 100
          (countprof_start 0 initProf))))))).1
      = ["mod.lua:10;mod.lua:20 5", "mod.lua:10 0"] :=
  ⟨rfl, dump_scenario_exact_output (countprof_start 0 initProf) rfl⟩

/-- C2 (counterexample): the claim as stated — that the dump is exactly the
single line `mod.lua:10;mod.lua:20 5` — is false on the code: the dump of
the concrete scenario is not that one-line list. -/
theorem dump_scenario_two_lines_not_one :
    (countprof_dump (countHook 500 scenarioStack 500 (countHook 400
      scenarioStack 400 (countHook 300 scenarioStack 300 (countHook 200
        scenarioStack 200 (countHook 100 scenarioStack 100
          (countprof_start 0 initProf))))))).1
      ≠ ["mod.lua:10;mod.lua:20 5"] := by
  rw [dump_after_five (countprof_start 0 initProf) rfl 100 200 300 400 500
    100 200 300 400 500]
  decide

/-- C3: the serializer emits exactly one line per node of the forest — in
traversal order, the output is the per-node entry list (root-to-node path
with the node's own hit count) rendered as `;`-joined `source:line` tokens,
a space, and the decimal count. -/
theorem serializer_line_per_node (f : List Source') :
    dumpSources f [] = (entriesSources f []).map renderEntry :=
  dump_eq_entries f []

/-- C4 (amended): the elapsed divisor is the `uint64` wrap-around difference
`(now - lastTimestamp) mod 2^64` clamped to a 1-microsecond floor; for
`now = lastTimestamp` this is 1, but for `now < lastTimestamp` it is the
huge wrapped value, not 1. -/
theorem elapsed_wraps_mod_u64 (now last : Nat) (h1 : now < 2 ^ 64)
    (h2 : last < 2 ^ 64) :
    (hookElapsed now last : Int) = max (((now : Int) - last) % 2 ^ 64) 1 :=
  hookElapsed_mod now last h1 h2

theorem elapsed_wraps_mod_u64_witness :
    (5 : Nat) < 2 ^ 64 ∧ (10 : Nat) < 2 ^ 64 ∧
    (hookElapsed 5 10 : Int) = max (((5 : Int) - 10) % 2 ^ 64) 1 :=
  ⟨by norm_num, by norm_num,
    elapsed_wraps_mod_u64 5 10 (by norm_num) (by norm_num)⟩

/-- C4 (counterexample): with `now = 5` and `lastTimestamp = 10` the code's
elapsed value is the wrapped `2^64 - 5`, not the claimed
`max(now - lastTimestamp, 1) = 1`. -/
theorem elapsed_clock_jump_not_clamped :
    hookElapsed 5 10 = 2 ^ 64 - 5 ∧
      (hookElapsed 5 10 : Int) ≠ max ((5 : Int) - 10) 1 := by
  constructor
  · decide
  · decide

/-- C5: in every state reachable from the initial all-zero window, the
sorted view is sorted ascending and holds exactly the same multiset of 19
values as the insertion-order ring. -/
theorem window_sorted_perm_invariant (xs : List Int) :
    (feedMW xs).gIPMSWin.Sorted (· ≤ ·) ∧
    (feedMW xs).gIPMSWin.Perm (feedMW xs).gIPMSRing ∧
    (feedMW xs).gIPMSWin.length = 19 ∧
    (feedMW xs).gIPMSRing.length = 19 := by
  obtain ⟨a, b, _c, d, e⟩ := inv_feedMW xs
  exact ⟨d, e, a, b⟩

/-- C6: the interval stored as `gLastCount` and used to re-arm the hook is
never less than 1, for any interrupt timestamps, stack, and state. -/
theorem next_interval_at_least_one (cur : Nat) (stack : List FrameKey)
    (endTime : Nat) (s : ProfState) :
    1 ≤ (countHook cur stack endTime s).gLastCount ∧
    (countHook cur stack endTime s).hookCount
      = some (countHook cur stack endTime s).gLastCount := by
  refine ⟨?_, rfl⟩
  show (1 : Int) ≤ if (updateIPMSWin (s.gLastCount * 1000
      / (hookElapsed cur s.gLastTime : Int)) s.mw).1 < 1 then 1
    else (updateIPMSWin (s.gLastCount * 1000
      / (hookElapsed cur s.gLastTime : Int)) s.mw).1
  split <;> omega

/-- C7: recording the same nonempty root-to-leaf path `n ≥ 1` times into an
empty forest yields exactly one node per level (no duplicate siblings), with
hit count `n` at the leaf and 0 at every intermediate node — the forest is
literally the chain `chainOf ks n`. -/
theorem repeat_path_single_chain (ks : List FrameKey) (n : Nat)
    (hne : ks ≠ []) (hn : 1 ≤ n) :
    (recordPath ks)^[n] [] = chainOf ks n := by
  obtain ⟨m, rfl⟩ : ∃ m, n = m + 1 := ⟨n - 1, by omega⟩
  exact iterate_recordPath ks hne m

theorem repeat_path_single_chain_witness :
    ([("a", 1), ("a", 2), ("b", 7)] : List FrameKey) ≠ [] ∧ 1 ≤ 3 ∧
    (recordPath [("a", 1), ("a", 2), ("b", 7)])^[3] []
      = chainOf [("a", 1), ("a", 2), ("b", 7)] 3 :=
  ⟨by simp, by norm_num,
    repeat_path_single_chain [("a", 1), ("a", 2), ("b", 7)] 3 (by simp)
      (by norm_num)⟩

/-- C8: the find-or-create operations have move-to-front semantics: a
present key's first node is unlinked and returned together with the rest of
the list unchanged (the caller's updated list is `node :: rest`); an absent
key yields a fresh node with zero count and no children in front of the
unchanged list. -/
theorem find_or_create_move_to_front (lh : List Line') (lk : Int)
    (sh : List Source') (sk : String) :
    ((∀ l ∈ lh, l.line ≠ lk) → getLine lh lk = (Line'.mk lk 0 [], lh)) ∧
    (∀ (A : List Line') (n : Line') (B : List Line'),
      lh = A ++ n :: B → n.line = lk → (∀ l ∈ A, l.line ≠ lk) →
      getLine lh lk = (n, A ++ B)) ∧
    ((∀ t ∈ sh, t.source ≠ sk) → getSource sh sk = (Source'.mk sk [], sh)) ∧
    (∀ (A : List Source') (n : Source') (B : List Source'),
      sh = A ++ n :: B → n.source = sk → (∀ t ∈ A, t.source ≠ sk) →
      getSource sh sk = (n, A ++ B)) := by
  refine ⟨getLine_absent lh lk, ?_, getSource_absent sh sk, ?_⟩
  · intro A n B hdec hn hA
    subst hdec
    exact getLine_present A n B lk hn hA
  · intro A n B hdec hn hA
    subst hdec
    exact getSource_present A n B sk hn hA

theorem find_or_create_move_to_front_witness :
    getLine [Line'.mk 1 5 [], Line'.mk 2 3 []] 2
        = (Line'.mk 2 3 [], [Line'.mk 1 5 []]) ∧
    getLine [Line'.mk 1 5 [], Line'.mk 2 3 []] 7
        = (Line'.mk 7 0 [], [Line'.mk 1 5 [], Line'.mk 2 3 []]) ∧
    getSource [Source'.mk "a" [], Source'.mk "b" []] "b"
        = (Source'.mk "b" [], [Source'.mk "a" []]) ∧
    getSource [Source'.mk "a" [], Source'.mk "b" []] "c"
        = (Source'.mk "c" [],
            [Source'.mk "a" [], Source'.mk "b" []]) := by
  refine ⟨?_, ?_, ?_, ?_⟩
  · exact (find_or_create_move_to_front [Line'.mk 1 5 [], Line'.mk 2 3 []] 2
        [] "x").2.1 [Line'.mk 1 5 []] (Line'.mk 2 3 []) [] rfl rfl
      (by simp [Line'.line])
  · exact (find_or_create_move_to_front [Line'.mk 1 5 [], Line'.mk 2 3 []] 7
        [] "x").1 (by simp [Line'.line])
  · exact (find_or_create_move_to_front [] 0
        [Source'.mk "a" [], Source'.mk "b" []] "b").2.2.2
      [Source'.mk "a" []] (Source'.mk "b" []) [] rfl rfl
      (by simp [Source'.source])
  · exact (find_or_create_move_to_front [] 0
        [Source'.mk "a" [], Source'.mk "b" []] "c").2.2.1
      (by simp [Source'.source])

/-- C9: neither `countprof_stop` nor `countprof_dump` modifies the
aggregation forest (dump returns the whole state unchanged), restarting
leaves the forest intact, and sampling after a restart accumulates into the
same forest. -/
theorem stop_dump_preserve_forest (s : ProfState) (t cur endTime : Nat)
    (stack : List FrameKey) :
    (countprof_stop s).gSourceHead = s.gSourceHead ∧
    (countprof_dump s).2 = s ∧
    (countprof_start t (countprof_stop s)).gSourceHead = s.gSourceHead ∧
    (countHook cur stack endTime
        (countprof_start t (countprof_stop s))).gSourceHead
      = recordPath stack s.gSourceHead :=
  ⟨rfl, rfl, rfl, rfl⟩

/-- C10: on every state reachable from the initial all-zero window, the
fully bounds-checked `updateIPMSWin` (which fails on any out-of-bounds
access, including a linear scan running past the end of the array) succeeds
and agrees with the plain model — so the scan always finds the evicted value
below index 19 and every bubble access stays within `[0, 18]`. -/
theorem window_accesses_in_bounds (xs : List Int) (x : Int) :
    updateIPMSWinChecked x (feedMW xs) = some (updateIPMSWin x (feedMW xs)) :=
  updateIPMSWinChecked_eq x (feedMW xs) (inv_feedMW xs)

end Countprof
